import Mathlib

/-!
# PicoMol — verification of the molecular-structure core

A shallow embedding of the PicoMol repository's data model and operations:

* `src/picomol/mol/atom.py`, `bond.py`, `residue.py` — the record types;
* `src/picomol/mol/structure.py` — `PDBStructure` and its derived views;
* `src/picomol/molviewspec/save.py` — `save_molviewspec`;
* the loader pipeline (`picomol.loader.pdb`, not shipped under `src/`) is
  modelled from the spec where a claim depends on it.

Python floats are embedded as rationals (the exact values of IEEE-754
doubles are rational); the `numpy` `float32` narrowing performed by
`get_atom_positions` is modelled by explicit correct rounding to a 24-bit
significand (`roundF32`).  Python lists are embedded as Lean lists; where a
claim is about list object identity (aliasing), a reference-level model
with an explicit heap is used.
-/

namespace PicoMol

/-- Embeds `Atom` (src/picomol/mol/atom.py): a dataclass holding one parsed
atom record.  The trailing three fields carry the dataclass's default
values, mirroring `charge: str = ""`, `occupancy: float = 1.0`,
`b_factor: float = 0.0`. -/
structure Atom where
  serial : Int
  name : String
  res_name : String
  chain_id : String
  res_seq : Int
  x : ℚ
  y : ℚ
  z : ℚ
  element : String
  charge : String := ""
  occupancy : ℚ := 1
  b_factor : ℚ := 0
deriving DecidableEq

/-- Embeds `Bond` (src/picomol/mol/bond.py): a pair of indices into the
owning structure's atom list plus a kind, defaulting to `"single"`. -/
structure Bond where
  atom1_idx : Int
  atom2_idx : Int
  bond_type : String := "single"
deriving DecidableEq

/-- Embeds `Residue` (src/picomol/mol/residue.py). -/
structure Residue where
  name : String
  chain_id : String
  seq_num : Int
  atoms : List Atom
  start_idx : Int
deriving DecidableEq

/-- Embeds `PDBStructure` (src/picomol/mol/structure.py): the aggregate
root with its five fields. -/
structure PDBStructure where
  title : String
  atoms : List Atom
  bonds : List Bond
  residues : List Residue
  chains : List String
deriving DecidableEq

/-- Round a rational to the nearest integer, ties to even — the IEEE-754
default rounding direction used by numpy conversions. -/
def rne (q : ℚ) : ℤ :=
  if q - ⌊q⌋ < 1/2 then ⌊q⌋
  else if 1/2 < q - ⌊q⌋ then ⌊q⌋ + 1
  else if ⌊q⌋ % 2 = 0 then ⌊q⌋ else ⌊q⌋ + 1

/-- Correct rounding of a real (here: exact rational) coordinate value to
IEEE-754 binary32, as performed by `np.array(..., dtype=np.float32)` in
`PDBStructure.get_atom_positions`: the nearest (ties to even) dyadic with a
24-bit significand.  This models the narrowing on binary32's normal range,
which covers protein coordinates; overflow to infinity and subnormal
flushing lie outside the coordinate domain and are not modelled. -/
def roundF32 (q : ℚ) : ℚ :=
  if q = 0 then 0
  else
    let e : ℤ := Int.log 2 |q|
    (if 0 < q then 1 else -1) * (rne (|q| * 2 ^ (23 - e)) : ℚ) * 2 ^ (e - 23)

/-- Embeds `PDBStructure.get_atom_positions`
(src/picomol/mol/structure.py, lines 20–22): one row `[atom.x, atom.y,
atom.z]` per atom, in atom-list order, narrowed to `float32`. -/
def PDBStructure.get_atom_positions (s : PDBStructure) : List (ℚ × ℚ × ℚ) :=
  s.atoms.map (fun atom => (roundF32 atom.x, roundF32 atom.y, roundF32 atom.z))

/-- Embeds `PDBStructure.get_atom_elements`
(src/picomol/mol/structure.py, lines 24–26). -/
def PDBStructure.get_atom_elements (s : PDBStructure) : List String :=
  s.atoms.map (fun atom => atom.element)

/-- Embeds `PDBStructure.get_residue_atoms`
(src/picomol/mol/structure.py, lines 28–32): the guard
`0 <= residue_idx < len(self.residues)` selects the residue's atom list,
every other index returns `[]`. -/
def PDBStructure.get_residue_atoms (s : PDBStructure) (residue_idx : Int) :
    List Atom :=
  if h : 0 ≤ residue_idx ∧ residue_idx < s.residues.length then
    (s.residues.get ⟨residue_idx.toNat, by omega⟩).atoms
  else []

/-- The API surface of `PDBStructure`: the three exposed operations of
src/picomol/mol/structure.py.  The class defines no other method and no
mutator. -/
inductive StructOp where
  | getAtomPositions
  | getAtomElements
  | getResidueAtoms (residue_idx : Int)

/-- The value returned by one `PDBStructure` call. -/
inductive OpResult where
  | positions (ps : List (ℚ × ℚ × ℚ))
  | elements (es : List String)
  | residueAtoms (atoms : List Atom)

/-- One call on a `PDBStructure`: the returned value paired with the state
of the structure after the call.  A mutating method would return an updated
state here; the three methods of src/picomol/mol/structure.py never assign
to `self`, so each returns the state it received. -/
def applyOp (s : PDBStructure) : StructOp → OpResult × PDBStructure
  | .getAtomPositions => (.positions s.get_atom_positions, s)
  | .getAtomElements => (.elements s.get_atom_elements, s)
  | .getResidueAtoms i => (.residueAtoms (s.get_residue_atoms i), s)

/-- The structure state after an arbitrary sequence of exposed calls. -/
def runOps (s : PDBStructure) : List StructOp → PDBStructure
  | [] => s
  | op :: ops => runOps (applyOp s op).2 ops

/-! ## Reference-level model for list aliasing

`get_residue_atoms` returns `self.residues[residue_idx].atoms` — in Python
this is the residue's own list object, not a copy.  To state claims about
object identity, atom lists are placed in an explicit heap of list cells
and a residue holds a reference (cell index) to its atom list, mirroring
CPython's reference semantics for the same source lines. -/

/-- A heap of Python list objects holding atoms: cell index ↦ contents. -/
def Heap : Type := Nat → List Atom

/-- Reading a list object. -/
def Heap.read (h : Heap) (r : Nat) : List Atom := h r

/-- In-place mutation of a list object (e.g. `lst.append`, `lst[i] = ...`,
`lst.clear` by the caller): the cell `r` now holds `l`. -/
def Heap.write (h : Heap) (r : Nat) (l : List Atom) : Heap :=
  fun r' => if r' = r then l else h r'

/-- `Residue` at reference level: `atoms` is a reference to a heap cell. -/
structure HResidue where
  name : String
  chain_id : String
  seq_num : Int
  atomsRef : Nat
  start_idx : Int

/-- `PDBStructure` at reference level. -/
structure HStructure where
  title : String
  atoms : List Atom
  bonds : List Bond
  residues : List HResidue
  chains : List String

/-- What a Python method can hand back when it returns a list: an existing
list object (a reference into the heap), or a freshly allocated list. -/
inductive PyListResult where
  | ref (r : Nat)
  | fresh (l : List Atom)
deriving DecidableEq

/-- `PDBStructure.get_residue_atoms` under reference semantics
(src/picomol/mol/structure.py, lines 28–32): in range, the method returns
`self.residues[residue_idx].atoms` — the residue's own list object; out of
range it returns the freshly built literal `[]`. -/
def HStructure.get_residue_atoms (s : HStructure) (residue_idx : Int) :
    PyListResult :=
  if h : 0 ≤ residue_idx ∧ residue_idx < s.residues.length then
    .ref (s.residues.get ⟨residue_idx.toNat, by omega⟩).atomsRef
  else .fresh []

/-- The atoms a residue holds, as observed through the heap. -/
def HResidue.atomsIn (res : HResidue) (h : Heap) : List Atom :=
  h.read res.atomsRef

/-! ## The loader pipeline, modelled from the spec

The repository's examples import `picomol.loader.pdb.PDBLoader`, but that
module is not shipped under `src/`; the definitions in this section are
therefore modelled from the spec (sections 4.1–4.3, 4.6).  They start from
parsed atom records and explicit-connectivity records; the fixed-column
text extraction itself (spec 4.1) is upstream of everything the claims
about this pipeline quantify over. -/

/-- The residue-grouping key of an atom: (chain id, residue sequence
number), per spec section 4.2. -/
def atomKey (a : Atom) : String × Int := (a.chain_id, a.res_seq)

/-- Modelled from the spec: the scanning loop of the Residue Grouper
(spec 4.2).  `idx` is the index of the next atom in the structure's flat
atom sequence, `groups` the finished residues, `cur` the currently open
group.  An atom whose (chain, seq num) key equals the open group's key
joins it; any other key closes the group and opens a new one with
`start_idx` set to the current index — a later-recurring key starts a new
residue entry rather than merging. -/
def groupStep (idx : Nat) (groups : List Residue) (cur : Residue) :
    List Atom → List Residue
  | [] => groups ++ [cur]
  | a :: rest =>
    if atomKey a = (cur.chain_id, cur.seq_num) then
      groupStep (idx + 1) groups { cur with atoms := cur.atoms ++ [a] } rest
    else
      groupStep (idx + 1) (groups ++ [cur])
        ⟨a.res_name, a.chain_id, a.res_seq, [a], (idx : Int)⟩ rest

/-- Modelled from the spec: the Residue Grouper of the loader
(`picomol.loader.pdb`, not shipped under `src/`; spec section 4.2): one
pass over the atom sequence, grouping runs of equal (chain, seq num) keys;
each residue's name, chain and seq number come from its first atom. -/
def groupResidues : List Atom → List Residue
  | [] => []
  | a :: rest => groupStep 1 [] ⟨a.res_name, a.chain_id, a.res_seq, [a], 0⟩ rest

/-- Modelled from the spec: `chains` is the deduplicated,
first-appearance-ordered list of the atoms' chain identifiers (spec 4.2). -/
def chainsOf (atoms : List Atom) : List String :=
  atoms.foldl (fun acc a => if a.chain_id ∈ acc then acc else acc ++ [a.chain_id]) []

/-- Modelled from the spec: per-element covalent radii in Å with the
conservative fallback for unknown elements (spec 4.3). -/
def covalentRadius (el : String) : ℚ :=
  if el = "H" then 31/100
  else if el = "C" then 76/100
  else if el = "N" then 71/100
  else if el = "O" then 66/100
  else if el = "S" then 105/100
  else 77/100

/-- Squared Euclidean distance between two atoms' coordinates. -/
def dist2 (a b : Atom) : ℚ := (a.x - b.x) ^ 2 + (a.y - b.y) ^ 2 + (a.z - b.z) ^ 2

/-- Modelled from the spec: the fixed multiplicative slack on the
covalent-radius sum; the spec names 1.15–1.3 as the typical range. -/
def bondTolerance : ℚ := 6/5

/-- Modelled from the spec: the minimum bond distance rejecting
coincident or duplicate coordinates (spec 4.3 names 0.4 Å). -/
def minBondDist : ℚ := 2/5

/-- Whether the unordered pair (i, j) already occurs among `bonds`. -/
def alreadyBonded (bonds : List Bond) (i j : Nat) : Bool :=
  bonds.any (fun b =>
    (b.atom1_idx == (i : Int) && b.atom2_idx == (j : Int)) ||
    (b.atom1_idx == (j : Int) && b.atom2_idx == (i : Int)))

/-- Fallback atom for positional lookups whose bounds the structure's
invariants already guarantee (spec section 7: exporters do not
re-validate). -/
def dummyAtom : Atom := ⟨0, "", "", "", 0, 0, 0, 0, "", "", 1, 0⟩

/-- Modelled from the spec: the Bond Inference Engine (spec 4.3).  Pairs
are iterated in ascending index order `i < j`; a single bond is inferred
when the pair is not already bonded, and its distance lies strictly above
the minimum threshold and at most the tolerance-scaled radius sum.  The
comparisons are taken on squares, equivalent for these nonnegative
quantities. -/
def inferBonds (atoms : List Atom) (bonds : List Bond) : List Bond :=
  (List.range atoms.length).flatMap (fun i =>
    ((List.range atoms.length).filter (fun j => i < j)).filterMap (fun j =>
      let a := atoms.getD i dummyAtom
      let b := atoms.getD j dummyAtom
      let thr := (covalentRadius a.element + covalentRadius b.element) * bondTolerance
      if alreadyBonded bonds i j = false ∧
          minBondDist ^ 2 < dist2 a b ∧ dist2 a b ≤ thr ^ 2 then
        some ⟨(i : Int), (j : Int), "single"⟩
      else none))

/-- Modelled from the spec: the serial→index lookup built while scanning
atom records (spec 4.1). -/
def serialIndex (atoms : List Atom) (serial : Int) : Option Nat :=
  atoms.findIdx? (fun a => a.serial == serial)

/-- Modelled from the spec: resolving the partner serials of one
connectivity record; an unknown serial fails the parse (spec 4.1). -/
def resolveSerials (atoms : List Atom) : List Int → Except String (List Nat)
  | [] => .ok []
  | p :: ps =>
    match serialIndex atoms p with
    | none => .error ("unresolved serial " ++ toString p)
    | some j =>
      match resolveSerials atoms ps with
      | .error e => .error e
      | .ok js => .ok (j :: js)

/-- Modelled from the spec: one explicit-connectivity record (source
serial, up to four partner serials) becomes bonds from the resolved source
index to each resolved partner index (spec 4.1).  A partner resolving to
the source atom itself is dropped, preserving the `Bond` data-model
invariant `index1 ≠ index2` (spec section 3). -/
def resolveRecord (atoms : List Atom) (r : Int × List Int) :
    Except String (List Bond) :=
  match serialIndex atoms r.1 with
  | none => .error ("unresolved serial " ++ toString r.1)
  | some i =>
    match resolveSerials atoms r.2 with
    | .error e => .error e
    | .ok js =>
      .ok ((js.filter (fun j => j ≠ i)).map
        (fun (j : Nat) => ⟨(i : Int), (j : Int), "single"⟩))

/-- Modelled from the spec: all explicit-connectivity records resolved in
order; the first unresolved serial fails the parse (spec 4.1). -/
def resolveConect (atoms : List Atom) :
    List (Int × List Int) → Except String (List Bond)
  | [] => .ok []
  | r :: rs =>
    match resolveRecord atoms r with
    | .error e => .error e
    | .ok bs =>
      match resolveConect atoms rs with
      | .error e => .error e
      | .ok rest => .ok (bs ++ rest)

/-- Modelled from the spec: the loader pipeline from parsed records to the
immutable structure (spec section 2): explicit bonds are resolved, inferred
bonds appended, atoms grouped into residues, chains derived. -/
def buildStructure (title : String) (atoms : List Atom)
    (conect : List (Int × List Int)) : Except String PDBStructure :=
  match resolveConect atoms conect with
  | .error e => .error e
  | .ok explicitBonds =>
    .ok ⟨title, atoms, explicitBonds ++ inferBonds atoms explicitBonds,
         groupResidues atoms, chainsOf atoms⟩

/-- A `PicoGL` buffer group: an entry count with flat position and color
arrays. -/
structure PicoglGroup where
  count : Nat
  positions : List ℚ
  colors : List ℚ

/-- The `PicoGL` export document: an `atoms` group and a `bonds` group. -/
structure PicoglData where
  atoms : PicoglGroup
  bonds : PicoglGroup

/-- Modelled from the spec: the per-element RGB color table of the PicoGL
exporter (spec 4.6), CPK-style with a fallback color. -/
def elementColor (el : String) : ℚ × ℚ × ℚ :=
  if el = "H" then (1, 1, 1)
  else if el = "C" then (1/2, 1/2, 1/2)
  else if el = "N" then (0, 0, 1)
  else if el = "O" then (1, 0, 0)
  else if el = "S" then (1, 1, 0)
  else (1, 1/2, 1)

/-- Modelled from the spec: the per-bond-kind RGB color table (spec 4.6). -/
def bondKindColor (kind : String) : ℚ × ℚ × ℚ :=
  if kind = "single" then (1/2, 1/2, 1/2) else (3/4, 3/4, 3/4)

/-- Modelled from the spec: the PicoGL exporter `to_picogl_data`
(spec 4.6).  The atoms group carries one vertex per atom in atom order;
the bonds group carries two endpoint vertices per bond in bond-list order,
`count` counting vertex entries so that `len(positions) == 3 * count`;
each vertex gets one RGB color entry. -/
def to_picogl_data (s : PDBStructure) : PicoglData :=
  ⟨⟨s.atoms.length,
    s.atoms.flatMap (fun a => [a.x, a.y, a.z]),
    s.atoms.flatMap (fun a =>
      [(elementColor a.element).1, (elementColor a.element).2.1,
       (elementColor a.element).2.2])⟩,
   ⟨2 * s.bonds.length,
    s.bonds.flatMap (fun b =>
      let a1 := s.atoms.getD b.atom1_idx.toNat dummyAtom
      let a2 := s.atoms.getD b.atom2_idx.toNat dummyAtom
      [a1.x, a1.y, a1.z, a2.x, a2.y, a2.z]),
    s.bonds.flatMap (fun b =>
      let c := bondKindColor b.bond_type
      [c.1, c.2.1, c.2.2, c.1, c.2.1, c.2.2])⟩⟩

end PicoMol

namespace PicoMol

/-- `(applyOp s op).2 = s`: none of the three exposed methods of
`PDBStructure` assigns to `self`. -/
theorem applyOp_snd (s : PDBStructure) (op : StructOp) : (applyOp s op).2 = s := by
  cases op <;> rfl

/-- C1: a `PDBStructure` is immutable under its API: the exposed operations
are exactly the constructors of `StructOp` (there is no mutator), and after
any sequence of `get_atom_positions` / `get_atom_elements` /
`get_residue_atoms` calls the structure — hence each of its five fields
`title`, `atoms`, `bonds`, `residues`, `chains` — is unchanged. -/
theorem runOps_structure_unchanged (s : PDBStructure) (ops : List StructOp) :
    runOps s ops = s ∧
    (runOps s ops).title = s.title ∧ (runOps s ops).atoms = s.atoms ∧
    (runOps s ops).bonds = s.bonds ∧ (runOps s ops).residues = s.residues ∧
    (runOps s ops).chains = s.chains := by
  have key : ∀ ops' s', runOps s' ops' = s' := by
    intro ops'
    induction ops' with
    | nil => intro s'; rfl
    | cons op ops'' ih =>
      intro s'
      rw [runOps, applyOp_snd]
      exact ih s'
  rw [key ops s]
  exact ⟨rfl, rfl, rfl, rfl, rfl, rfl⟩

/-- C2: `get_residue_atoms` returns `[]` for any index outside
`[0, len(residues))` — negative indices included — and for an in-range
index returns exactly that residue's atom list. -/
theorem get_residue_atoms_total (s : PDBStructure) (i : Int) :
    (i < 0 ∨ (s.residues.length : Int) ≤ i → s.get_residue_atoms i = []) ∧
    (∀ _h1 : 0 ≤ i, ∀ h2 : i.toNat < s.residues.length,
      s.get_residue_atoms i = (s.residues.get ⟨i.toNat, h2⟩).atoms) := by
  constructor
  · intro hout
    rw [PDBStructure.get_residue_atoms, dif_neg]
    omega
  · intro h1 h2
    rw [PDBStructure.get_residue_atoms, dif_pos ⟨h1, by omega⟩]

/-- A sample structure: one glycine nitrogen in one residue of chain A. -/
def sampleAtom : Atom := ⟨1, "N", "GLY", "A", 1, 2, 3, 4, "N", "", 1, 0⟩

/-- The sample residue holding `sampleAtom`. -/
def sampleResidue : Residue := ⟨"GLY", "A", 1, [sampleAtom], 0⟩

/-- The sample structure for concrete instantiations. -/
def sampleStructure : PDBStructure :=
  ⟨"SAMPLE", [sampleAtom], [], [sampleResidue], ["A"]⟩

/-- C2 at concrete inputs: index −1 and index 5 give `[]`, index 0 gives
the first residue's atoms. -/
theorem get_residue_atoms_total_witness :
    sampleStructure.get_residue_atoms (-1) = [] ∧
    sampleStructure.get_residue_atoms 5 = [] ∧
    sampleStructure.get_residue_atoms 0 =
      (sampleStructure.residues.get ⟨0, by with_unfolding_all decide⟩).atoms :=
  ⟨(get_residue_atoms_total sampleStructure (-1)).1 (by with_unfolding_all decide),
   (get_residue_atoms_total sampleStructure 5).1 (by with_unfolding_all decide),
   (get_residue_atoms_total sampleStructure 0).2 (by with_unfolding_all decide)
     (by with_unfolding_all decide)⟩

/-- C3: `get_atom_positions` has one entry per atom; the `i`-th entry is
the `float32`-narrowed `(x, y, z)` of the `i`-th atom; and the result is a
function of the atom sequence alone (two structures with the same atom
sequence get the same array), so it is deterministically regenerable. -/
theorem get_atom_positions_shape (s s' : PDBStructure) (h : s.atoms = s'.atoms) :
    s.get_atom_positions.length = s.atoms.length ∧
    (∀ i : Nat, s.get_atom_positions[i]? =
      s.atoms[i]?.map (fun a => (roundF32 a.x, roundF32 a.y, roundF32 a.z))) ∧
    s.get_atom_positions = s'.get_atom_positions := by
  refine ⟨List.length_map _ _, fun i => List.getElem?_map .., ?_⟩
  rw [PDBStructure.get_atom_positions, PDBStructure.get_atom_positions, h]

/-- A second sample structure sharing `sampleStructure`'s atom list but
nothing else. -/
def sampleStructure2 : PDBStructure := ⟨"OTHER", [sampleAtom], [], [], []⟩

/-- C3 at a concrete input: applied to `sampleStructure` and a structure
differing in every other field. -/
theorem get_atom_positions_shape_witness :
    sampleStructure.get_atom_positions.length = sampleStructure.atoms.length ∧
    (∀ i : Nat, sampleStructure.get_atom_positions[i]? =
      sampleStructure.atoms[i]?.map
        (fun a => (roundF32 a.x, roundF32 a.y, roundF32 a.z))) ∧
    sampleStructure.get_atom_positions = sampleStructure2.get_atom_positions :=
  get_atom_positions_shape sampleStructure sampleStructure2 rfl

/-- C8: an `Atom` built from the nine required fields alone carries the
dataclass defaults `charge = ""`, `occupancy = 1.0`, `b_factor = 0.0`; a
`Bond` built from its two indices alone carries `bond_type = "single"`. -/
theorem construction_defaults (serial : Int) (nm rn ci : String) (rs : Int)
    (x y z : ℚ) (el : String) (i1 i2 : Int) :
    ({ serial := serial, name := nm, res_name := rn, chain_id := ci,
       res_seq := rs, x := x, y := y, z := z, element := el } : Atom).charge = "" ∧
    ({ serial := serial, name := nm, res_name := rn, chain_id := ci,
       res_seq := rs, x := x, y := y, z := z, element := el } : Atom).occupancy = 1 ∧
    ({ serial := serial, name := nm, res_name := rn, chain_id := ci,
       res_seq := rs, x := x, y := y, z := z, element := el } : Atom).b_factor = 0 ∧
    ({ atom1_idx := i1, atom2_idx := i2 } : Bond).bond_type = "single" :=
  ⟨rfl, rfl, rfl, rfl⟩

/-- Atom at x = 1 + 2⁻²⁵, which binary32 cannot represent. -/
def nearOneAtom : Atom := ⟨1, "C", "UNK", "A", 1, 1 + 1/33554432, 0, 0, "C", "", 1, 0⟩

/-- Atom at x = 1 exactly. -/
def oneAtom : Atom := ⟨2, "C", "UNK", "A", 1, 1, 0, 0, "C", "", 1, 0⟩

/-- Structure whose two atoms have distinct stored coordinates that
coincide after `float32` narrowing. -/
def collapseStructure : PDBStructure := ⟨"", [nearOneAtom, oneAtom], [], [], []⟩

/-- C9: every position entry is the binary32 rounding of the stored
coordinates, and the narrowing is lossy: there is a structure with two
atoms of distinct stored coordinates whose position entries are identical,
the first entry differing from its atom's stored `x`. -/
theorem get_atom_positions_narrows_to_float32 :
    (∀ (s : PDBStructure) (i : Nat),
      s.get_atom_positions[i]? =
        s.atoms[i]?.map (fun a => (roundF32 a.x, roundF32 a.y, roundF32 a.z))) ∧
    (∃ (s : PDBStructure) (a b : Atom) (p : ℚ × ℚ × ℚ),
      s.atoms = [a, b] ∧ (a.x, a.y, a.z) ≠ (b.x, b.y, b.z) ∧
      s.get_atom_positions = [p, p] ∧ p.1 ≠ a.x) := by
  constructor
  · intro s i
    exact List.getElem?_map ..
  · refine ⟨collapseStructure, nearOneAtom, oneAtom, (1, 0, 0), rfl,
      by with_unfolding_all decide, ?_, by with_unfolding_all decide⟩
    show collapseStructure.get_atom_positions = [(1, 0, 0), (1, 0, 0)]
    with_unfolding_all decide

/-- C10: for an in-range index, `get_residue_atoms` returns the residue's
own list object — the reference it returns is the residue's `atoms`
reference, and a caller mutating through it changes what the residue (and
hence the structure) holds. -/
theorem get_residue_atoms_aliases (h : Heap) (s : HStructure) (i : Nat)
    (hi : i < s.residues.length) (l : List Atom) :
    s.get_residue_atoms i = .ref (s.residues.get ⟨i, hi⟩).atomsRef ∧
    (s.residues.get ⟨i, hi⟩).atomsIn
      (h.write (s.residues.get ⟨i, hi⟩).atomsRef l) = l := by
  constructor
  · rw [HStructure.get_residue_atoms, dif_pos ⟨by omega, by omega⟩]
    simp
  · rw [HResidue.atomsIn, Heap.read, Heap.write, if_pos rfl]

/-- The sample residue at reference level, its atom list in heap cell 0. -/
def sampleHResidue : HResidue := ⟨"GLY", "A", 1, 0, 0⟩

/-- The sample structure at reference level. -/
def sampleHStructure : HStructure :=
  ⟨"SAMPLE", [sampleAtom], [], [sampleHResidue], ["A"]⟩

/-- A heap whose cell 0 holds the sample residue's atom list. -/
def sampleHeap : Heap := fun _ => [sampleAtom]

/-- `groupStep` invariant: the grouped atoms are exactly the finished
groups' atoms, the open group's atoms, then the unscanned tail. -/
theorem groupStep_flatMap (l : List Atom) :
    ∀ (idx : Nat) (groups : List Residue) (cur : Residue),
      (groupStep idx groups cur l).flatMap (fun r => r.atoms) =
        groups.flatMap (fun r => r.atoms) ++ cur.atoms ++ l := by
  induction l with
  | nil =>
    intro idx groups cur
    simp [groupStep]
  | cons a rest ih =>
    intro idx groups cur
    rw [groupStep]
    split
    · rw [ih]
      simp
    · rw [ih]
      simp

/-- The Residue Grouper partitions the atom sequence: concatenating the
residues' atom lists in order gives back the atom sequence. -/
theorem groupResidues_flatMap (atoms : List Atom) :
    (groupResidues atoms).flatMap (fun r => r.atoms) = atoms := by
  cases atoms with
  | nil => rfl
  | cons a rest =>
    rw [groupResidues, groupStep_flatMap]
    simp

/-- Helper: the length of a `flatMap` is the sum of the chunk lengths. -/
theorem length_flatMap_sum {α β : Type} (l : List α) (f : α → List β) :
    (l.flatMap f).length = (l.map (fun x => (f x).length)).sum := by
  induction l with
  | nil => rfl
  | cons a l ih => simp [List.flatMap_cons, ih]

/-- Helper: a `flatMap` of constant-length chunks has length `k * len`. -/
theorem length_flatMap_const {α β : Type} (l : List α) (f : α → List β) (k : Nat)
    (hf : ∀ a, (f a).length = k) : (l.flatMap f).length = k * l.length := by
  induction l with
  | nil => simp
  | cons a l ih =>
    rw [List.flatMap_cons, List.length_append, hf a, ih, List.length_cons]
    ring

/-- A resolved serial is an index into the atom list. -/
theorem serialIndex_lt (atoms : List Atom) (serial : Int) (i : Nat)
    (h : serialIndex atoms serial = some i) : i < atoms.length := by
  rw [serialIndex] at h
  obtain ⟨hlt, -⟩ := List.findIdx?_eq_some_iff_getElem.mp h
  exact hlt

/-- Every index resolved from partner serials is in range. -/
theorem resolveSerials_lt (atoms : List Atom) (ps : List Int) (js : List Nat)
    (h : resolveSerials atoms ps = .ok js) : ∀ j ∈ js, j < atoms.length := by
  induction ps generalizing js with
  | nil =>
    rw [resolveSerials] at h
    injection h with h
    subst h
    simp
  | cons p ps ih =>
    rw [resolveSerials] at h
    split at h
    · exact absurd h (by simp)
    · next j0 hsi =>
      split at h
      · exact absurd h (by simp)
      · next js0 hrs =>
        injection h with h
        subst h
        intro j hj
        rcases List.mem_cons.mp hj with rfl | hj
        · exact serialIndex_lt atoms p j hsi
        · exact ih js0 hrs j hj

/-- Every bond produced from one connectivity record has in-range, distinct
indices. -/
theorem resolveRecord_mem (atoms : List Atom) (r : Int × List Int)
    (bs : List Bond) (h : resolveRecord atoms r = .ok bs) (b : Bond)
    (hb : b ∈ bs) :
    ∃ i j : Nat, i < atoms.length ∧ j < atoms.length ∧ j ≠ i ∧
      b = ⟨(i : Int), (j : Int), "single"⟩ := by
  rw [resolveRecord] at h
  split at h
  · exact absurd h (by simp)
  · next i hsi =>
    split at h
    · exact absurd h (by simp)
    · next js hrs =>
      injection h with h
      subst h
      simp only [List.mem_map, List.mem_filter, decide_eq_true_eq] at hb
      obtain ⟨j, ⟨hjs, hji⟩, rfl⟩ := hb
      exact ⟨i, j, serialIndex_lt atoms r.1 i hsi,
        resolveSerials_lt atoms r.2 js hrs j hjs, hji, rfl⟩

/-- Every explicit bond resolved from the connectivity records has
in-range, distinct indices. -/
theorem resolveConect_mem (atoms : List Atom) (rs : List (Int × List Int))
    (bs : List Bond) (h : resolveConect atoms rs = .ok bs) (b : Bond)
    (hb : b ∈ bs) :
    ∃ i j : Nat, i < atoms.length ∧ j < atoms.length ∧ j ≠ i ∧
      b = ⟨(i : Int), (j : Int), "single"⟩ := by
  induction rs generalizing bs with
  | nil =>
    rw [resolveConect] at h
    injection h with h
    subst h
    exact absurd hb (by simp)
  | cons r rs ih =>
    rw [resolveConect] at h
    split at h
    · exact absurd h (by simp)
    · next bs0 hr =>
      split at h
      · exact absurd h (by simp)
      · next rest hrs =>
        injection h with h
        subst h
        rcases List.mem_append.mp hb with hb0 | hb1
        · exact resolveRecord_mem atoms r bs0 hr b hb0
        · exact ih rest hrs hb1

/-- Every inferred bond joins two in-range atoms with ascending indices. -/
theorem inferBonds_mem (atoms : List Atom) (bonds : List Bond) (b : Bond)
    (hb : b ∈ inferBonds atoms bonds) :
    ∃ i j : Nat, i < atoms.length ∧ j < atoms.length ∧ i < j ∧
      b = ⟨(i : Int), (j : Int), "single"⟩ := by
  rw [inferBonds] at hb
  simp only [List.mem_flatMap, List.mem_filterMap, List.mem_filter,
    List.mem_range, decide_eq_true_eq] at hb
  obtain ⟨i, hi, j, ⟨hj, hij⟩, hsome⟩ := hb
  split at hsome
  · injection hsome with hsome
    exact ⟨i, j, hi, hj, hij, hsome.symm⟩
  · exact absurd hsome (by simp)

/-- C4: every bond of a structure produced by the pipeline — explicit or
inferred — has both indices within `[0, len(atoms))` and the two indices
distinct. -/
theorem pipeline_bond_indices_valid (t : String) (atoms : List Atom)
    (conect : List (Int × List Int)) (s : PDBStructure)
    (h : buildStructure t atoms conect = .ok s) (b : Bond)
    (hb : b ∈ s.bonds) :
    0 ≤ b.atom1_idx ∧ b.atom1_idx < (s.atoms.length : Int) ∧
    0 ≤ b.atom2_idx ∧ b.atom2_idx < (s.atoms.length : Int) ∧
    b.atom1_idx ≠ b.atom2_idx := by
  rw [buildStructure] at h
  split at h
  · exact absurd h (by simp)
  · next eb heb =>
    injection h with h
    subst h
    rcases List.mem_append.mp hb with hbe | hbi
    · obtain ⟨i, j, hi, hj, hne, rfl⟩ := resolveConect_mem atoms conect eb heb b hbe
      refine ⟨by simp, ?_, by simp, ?_, ?_⟩ <;> simp only [Bond.mk.injEq] <;> omega
    · obtain ⟨i, j, hi, hj, hij, rfl⟩ := inferBonds_mem atoms eb b hbi
      refine ⟨by simp, ?_, by simp, ?_, ?_⟩ <;> simp only [Bond.mk.injEq] <;> omega

/-- C5: in a pipeline-produced structure the atom count is the sum of the
residues' atom counts, and concatenating the residues' atom lists in order
gives exactly the structure's atom sequence — every atom lies in exactly
one residue. -/
theorem pipeline_atoms_partition (t : String) (atoms : List Atom)
    (conect : List (Int × List Int)) (s : PDBStructure)
    (h : buildStructure t atoms conect = .ok s) :
    s.atoms.length = (s.residues.map (fun r => r.atoms.length)).sum ∧
    s.residues.flatMap (fun r => r.atoms) = s.atoms := by
  rw [buildStructure] at h
  split at h
  · exact absurd h (by simp)
  · next eb heb =>
    injection h with h
    subst h
    refine ⟨?_, groupResidues_flatMap atoms⟩
    show atoms.length = ((groupResidues atoms).map (fun r => r.atoms.length)).sum
    conv_lhs => rw [← groupResidues_flatMap atoms]
    exact length_flatMap_sum ..

/-- Atom at the origin: first carbon of the spec's inference scenario. -/
def wAtom0 : Atom := ⟨1, "C1", "UNK", "A", 1, 0, 0, 0, "C", "", 1, 0⟩

/-- Carbon 1.5 Å away: within bonding distance of `wAtom0`. -/
def wAtom1 : Atom := ⟨2, "C2", "UNK", "A", 1, 3/2, 0, 0, "C", "", 1, 0⟩

/-- Oxygen 10 Å away in a second residue: bonded to nothing. -/
def wAtom2 : Atom := ⟨3, "O1", "HOH", "A", 2, 10, 0, 0, "O", "", 1, 0⟩

/-- The structure the pipeline produces from the three sample atoms: one
bond 0–1, two residues, one chain. -/
def wStructure : PDBStructure :=
  ⟨"T", [wAtom0, wAtom1, wAtom2], [⟨0, 1, "single"⟩],
   [⟨"UNK", "A", 1, [wAtom0, wAtom1], 0⟩, ⟨"HOH", "A", 2, [wAtom2], 2⟩], ["A"]⟩

/-- C4 at a concrete input: the bond of the structure built from the three
sample atoms and the connectivity record `serial 1 → serial 2` has valid
distinct indices. -/
theorem pipeline_bond_indices_valid_witness :
    0 ≤ (Bond.mk 0 1 "single").atom1_idx ∧
    (Bond.mk 0 1 "single").atom1_idx < (wStructure.atoms.length : Int) ∧
    0 ≤ (Bond.mk 0 1 "single").atom2_idx ∧
    (Bond.mk 0 1 "single").atom2_idx < (wStructure.atoms.length : Int) ∧
    (Bond.mk 0 1 "single").atom1_idx ≠ (Bond.mk 0 1 "single").atom2_idx :=
  pipeline_bond_indices_valid "T" [wAtom0, wAtom1, wAtom2] [(1, [2])] wStructure
    (by with_unfolding_all rfl) ⟨0, 1, "single"⟩ (by with_unfolding_all decide)

/-- C5 at a concrete input: the structure built from the three sample atoms
(with no connectivity records) partitions its atoms into its residues. -/
theorem pipeline_atoms_partition_witness :
    wStructure.atoms.length =
      (wStructure.residues.map (fun r => r.atoms.length)).sum ∧
    wStructure.residues.flatMap (fun r => r.atoms) = wStructure.atoms :=
  pipeline_atoms_partition "T" [wAtom0, wAtom1, wAtom2] [] wStructure
    (by with_unfolding_all rfl)

/-- C6: in the PicoGL export of any structure, each group's positions array
has exactly `3 * count` entries and its colors array is entry-for-entry as
long as its positions array, for the atoms group and the bonds group
alike. -/
theorem picogl_arrays_aligned (s : PDBStructure) :
    (to_picogl_data s).atoms.positions.length = 3 * (to_picogl_data s).atoms.count ∧
    (to_picogl_data s).atoms.colors.length = (to_picogl_data s).atoms.positions.length ∧
    (to_picogl_data s).bonds.positions.length = 3 * (to_picogl_data s).bonds.count ∧
    (to_picogl_data s).bonds.colors.length = (to_picogl_data s).bonds.positions.length := by
  have ha : (to_picogl_data s).atoms.positions.length = 3 * s.atoms.length :=
    length_flatMap_const _ _ 3 (fun a => rfl)
  have hac : (to_picogl_data s).atoms.colors.length = 3 * s.atoms.length :=
    length_flatMap_const _ _ 3 (fun a => rfl)
  have hb : (to_picogl_data s).bonds.positions.length = 6 * s.bonds.length :=
    length_flatMap_const _ _ 6 (fun b => rfl)
  have hbc : (to_picogl_data s).bonds.colors.length = 6 * s.bonds.length :=
    length_flatMap_const _ _ 6 (fun b => rfl)
  refine ⟨ha, by rw [ha, hac], ?_, by rw [hb, hbc]⟩
  rw [hb]
  show 6 * s.bonds.length = 3 * (2 * s.bonds.length)
  ring

/-- C10 at concrete inputs: mutating the list returned for residue 0 to
`[]` empties the residue's atoms. -/
theorem get_residue_atoms_aliases_witness :
    sampleHStructure.get_residue_atoms 0 =
      .ref (sampleHStructure.residues.get ⟨0, by with_unfolding_all decide⟩).atomsRef ∧
    (sampleHStructure.residues.get ⟨0, by with_unfolding_all decide⟩).atomsIn
      (sampleHeap.write
        (sampleHStructure.residues.get ⟨0, by with_unfolding_all decide⟩).atomsRef []) = [] :=
  get_residue_atoms_aliases sampleHeap sampleHStructure 0
    (by with_unfolding_all decide) []

end PicoMol

namespace PicoMol

/-! ## MolViewSpec saving (src/picomol/molviewspec/save.py)

`save_molviewspec` opens `output_path` for writing and runs
`json.dump(molviewspec, f, indent=2)`.  The document is embedded as
`JValue` (JSON-representable Python data: `None`, booleans, integers,
strings, lists, dicts), and `json.dump` with `indent=2` as a printer over
character lists; the embedding returns the text written to the file.  To
verify that the written text preserves every key and value of the
document, a decoder (`parseVal` below) is defined and proved to recover
the document from the printer's output. -/

/-- A JSON-representable Python value, as passed to `json.dump`: `None`, a
bool, an int, a string (a list of scalars), a list, or a dict (an ordered
association list — Python dicts preserve insertion order).  Floats, whose
`repr`-based shortest-digits printing is a CPython implementation detail,
are not modelled; the numeric leaves here are integers. -/
inductive JValue where
  | jnull
  | jbool (b : Bool)
  | jint (n : Int)
  | jstr (s : List Char)
  | jarr (elems : List JValue)
  | jobj (entries : List (List Char × JValue))

/-- Lowercase hexadecimal digit, as produced by Python's `'%04x'`. -/
def hexDigit (n : Nat) : Char :=
  if n < 10 then Char.ofNat (48 + n) else Char.ofNat (87 + n)

/-- Four lowercase hex digits of `n < 0x10000`, most significant first. -/
def hex4 (n : Nat) : List Char :=
  [hexDigit (n / 4096 % 16), hexDigit (n / 256 % 16),
   hexDigit (n / 16 % 16), hexDigit (n % 16)]

/-- One character of a JSON string as escaped by CPython's
`json.encoder.py_encode_basestring_ascii` (the `ensure_ascii=True`
default used by `json.dump` in save.py): quote and backslash get
two-character escapes, the five named control characters get their short
escapes, other characters outside `0x20–0x7e` become `\uXXXX` (a
surrogate pair above `0xFFFF`), and printable ASCII passes through. -/
def escapeChar (c : Char) : List Char :=
  if c = '\x22' then ['\\', '\x22']
  else if c = '\\' then ['\\', '\\']
  else if c = '\x08' then ['\\', 'b']
  else if c = '\x0c' then ['\\', 'f']
  else if c = '\n' then ['\\', 'n']
  else if c = '\r' then ['\\', 'r']
  else if c = '\t' then ['\\', 't']
  else if 0x20 ≤ c.toNat ∧ c.toNat ≤ 0x7e then [c]
  else if c.toNat < 0x10000 then '\\' :: 'u' :: hex4 c.toNat
  else '\\' :: 'u' :: hex4 (0xd800 + (c.toNat - 0x10000) / 0x400) ++
       '\\' :: 'u' :: hex4 (0xdc00 + (c.toNat - 0x10000) % 0x400)

/-- A JSON string token: quote, escaped characters, quote. -/
def encodeString (s : List Char) : List Char :=
  '\x22' :: (s.flatMap escapeChar ++ ['\x22'])

/-- The decimal digit character for `d < 10`. -/
def digitChar (d : Nat) : Char := Char.ofNat (48 + d)

/-- Decimal digits of a natural number, as printed by Python's `repr`. -/
def natToChars (n : Nat) : List Char :=
  if n = 0 then ['0'] else (Nat.digits 10 n).reverse.map digitChar

/-- An integer as printed by Python's `repr` (used by `json.dump` for
`int` values): optional minus sign and decimal digits. -/
def intToChars (n : Int) : List Char :=
  if n < 0 then '-' :: natToChars n.natAbs else natToChars n.natAbs

/-- The newline-plus-indent separator emitted between items when
`json.dump` is given `indent=2`: a newline and `2 * level` spaces. -/
def nl (level : Nat) : List Char := '\n' :: List.replicate (2 * level) ' '

mutual

/-- `json.dump(obj, f, indent=2)` as a pure printer: the characters the
CPython encoder writes for a value nested at `level`.  Containers open
with their bracket, newline-indent each item one level deeper with `","`
between items and `": "` after an object key, and close on a fresh line at
the outer level; empty containers print as two brackets. -/
def dumpsV : JValue → Nat → List Char
  | .jnull, _ => ['n', 'u', 'l', 'l']
  | .jbool true, _ => ['t', 'r', 'u', 'e']
  | .jbool false, _ => ['f', 'a', 'l', 's', 'e']
  | .jint n, _ => intToChars n
  | .jstr s, _ => encodeString s
  | .jarr [], _ => ['[', ']']
  | .jarr (v :: vs), level =>
    '[' :: (nl (level + 1) ++ (dumpsV v (level + 1) ++
      (dumpsArr vs (level + 1) ++ (nl level ++ [']']))))
  | .jobj [], _ => ['\x7b', '\x7d']
  | .jobj (e :: es), level =>
    '\x7b' :: (nl (level + 1) ++ (encodeString e.1 ++ (':' :: ' ' ::
      (dumpsV e.2 (level + 1) ++
        (dumpsObj es (level + 1) ++ (nl level ++ ['\x7d']))))))

/-- The remaining array items, each preceded by `","` and fresh-line
indent. -/
def dumpsArr : List JValue → Nat → List Char
  | [], _ => []
  | v :: vs, level =>
    ',' :: (nl level ++ (dumpsV v level ++ dumpsArr vs level))

/-- The remaining object entries, each preceded by `","`, fresh-line
indent, the escaped key and `": "`. -/
def dumpsObj : List (List Char × JValue) → Nat → List Char
  | [], _ => []
  | e :: es, level =>
    ',' :: (nl level ++ (encodeString e.1 ++ (':' :: ' ' ::
      (dumpsV e.2 level ++ dumpsObj es level))))

end

/-- The full text `json.dump(molviewspec, f, indent=2)` writes. -/
def dumps (d : JValue) : List Char := dumpsV d 0

/-- Embeds `save_molviewspec` (src/picomol/molviewspec/save.py, lines
4–9): opens `output_path` for writing text and dumps the document as JSON
with 2-space indent; the embedding returns the character sequence written
to that path.  Every character of the output is ASCII (`json.dump`
escapes non-ASCII by default), so the bytes on disk are the UTF-8
encoding of this text. -/
def save_molviewspec (molviewspec : JValue) (_output_path : String) : List Char :=
  dumps molviewspec

/-- JSON insignificant whitespace. -/
def isWsChar (c : Char) : Bool :=
  c = ' ' || c = '\n' || c = '\t' || c = '\r'

/-- Skip insignificant whitespace, as the decoder does between tokens. -/
def skipWs : List Char → List Char
  | [] => []
  | c :: cs => if isWsChar c then skipWs cs else c :: cs

/-- ASCII decimal digit. -/
def isDigitChar (c : Char) : Bool := 48 ≤ c.toNat && c.toNat ≤ 57

/-- The value of a decimal digit string, most significant first. -/
def digitsToNat (ds : List Char) : Nat :=
  ds.foldl (fun acc c => 10 * acc + (c.toNat - 48)) 0

/-- ASCII hex digit, either case (the decoder accepts both). -/
def isHexChar (c : Char) : Bool :=
  isDigitChar c || (97 ≤ c.toNat && c.toNat ≤ 102) ||
    (65 ≤ c.toNat && c.toNat ≤ 70)

/-- The value of a hex digit. -/
def hexVal (c : Char) : Nat :=
  if c.toNat ≤ 57 then c.toNat - 48
  else if c.toNat ≤ 70 then c.toNat - 55
  else c.toNat - 87

/-- The single-character JSON escapes. -/
def shortUnescape (c : Char) : Option Char :=
  if c = '\x22' then some '\x22'
  else if c = '\\' then some '\\'
  else if c = '/' then some '/'
  else if c = 'b' then some '\x08'
  else if c = 'f' then some '\x0c'
  else if c = 'n' then some '\n'
  else if c = 'r' then some '\r'
  else if c = 't' then some '\t'
  else none

/-- Lookahead for the second half of a surrogate pair: a `\\uYYYY` escape
whose value is a low surrogate, returning that value and the remaining
input. -/
def lowSurrogate? : List Char → Option (Nat × List Char)
  | b1 :: b2 :: g1 :: g2 :: g3 :: g4 :: rest =>
    if b1 = '\\' ∧ b2 = 'u' ∧
        (isHexChar g1 && isHexChar g2 && isHexChar g3 && isHexChar g4) = true ∧
        0xdc00 ≤ hexVal g1 * 4096 + hexVal g2 * 256 + hexVal g3 * 16 + hexVal g4 ∧
        hexVal g1 * 4096 + hexVal g2 * 256 + hexVal g3 * 16 + hexVal g4 < 0xe000 then
      some (hexVal g1 * 4096 + hexVal g2 * 256 + hexVal g3 * 16 + hexVal g4, rest)
    else none
  | _ => none

/-- A successful surrogate lookahead consumes exactly six characters. -/
theorem lowSurrogate?_length {l : List Char} {m : Nat} {r : List Char}
    (h : lowSurrogate? l = some (m, r)) : r.length + 6 = l.length := by
  match l with
  | [] => exact absurd h (by simp [lowSurrogate?])
  | [a] => exact absurd h (by simp [lowSurrogate?])
  | [a, b] => exact absurd h (by simp [lowSurrogate?])
  | [a, b, c] => exact absurd h (by simp [lowSurrogate?])
  | [a, b, c, d] => exact absurd h (by simp [lowSurrogate?])
  | [a, b, c, d, e] => exact absurd h (by simp [lowSurrogate?])
  | a :: b :: c :: d :: e :: f :: rest =>
    rw [lowSurrogate?] at h
    split at h
    · injection h with h
      rw [show r = rest from congrArg Prod.snd h.symm]
      simp
    · exact absurd h (by simp)

/-- Decode a JSON string body (after the opening quote) up to its closing
quote: literal characters pass through, short escapes and `\uXXXX` decode,
and a high-surrogate escape followed by a low-surrogate escape combines
into one supplementary character, as `json.loads` does.  This decoder is
the verification inverse of `encodeString`; on input outside the
printer's image it differs immaterially from CPython (a lone-surrogate
escape, which a Python `str` can hold but a Unicode scalar cannot,
decodes to NUL via `Char.ofNat`). -/
def parseStrBody : List Char → Option (List Char × List Char)
  | [] => none
  | c :: rest =>
    if c = '\x22' then some ([], rest)
    else if c = '\\' then
      match rest with
      | [] => none
      | e :: rest1 =>
        if e = 'u' then
          match rest1 with
          | h1 :: h2 :: h3 :: h4 :: rest2 =>
            if isHexChar h1 && isHexChar h2 && isHexChar h3 && isHexChar h4 then
              if 0xd800 ≤ hexVal h1 * 4096 + hexVal h2 * 256 + hexVal h3 * 16 + hexVal h4 ∧
                  hexVal h1 * 4096 + hexVal h2 * 256 + hexVal h3 * 16 + hexVal h4 < 0xdc00 then
                match hlow : lowSurrogate? rest2 with
                | some (m, rest3) =>
                  (parseStrBody rest3).map (fun p =>
                    (Char.ofNat (0x10000 +
                      (hexVal h1 * 4096 + hexVal h2 * 256 + hexVal h3 * 16 + hexVal h4 - 0xd800) * 0x400 +
                      (m - 0xdc00)) :: p.1, p.2))
                | none =>
                  (parseStrBody rest2).map (fun p =>
                    (Char.ofNat (hexVal h1 * 4096 + hexVal h2 * 256 + hexVal h3 * 16 + hexVal h4) :: p.1, p.2))
              else
                (parseStrBody rest2).map (fun p =>
                  (Char.ofNat (hexVal h1 * 4096 + hexVal h2 * 256 + hexVal h3 * 16 + hexVal h4) :: p.1, p.2))
            else none
          | _ => none
        else
          match shortUnescape e with
          | some c2 => (parseStrBody rest1).map (fun p => (c2 :: p.1, p.2))
          | none => none
    else (parseStrBody rest).map (fun p => (c :: p.1, p.2))
termination_by l => l.length
decreasing_by
  all_goals simp_wf
  all_goals try omega
  have := lowSurrogate?_length hlow
  omega

mutual

/-- Decode one JSON value after skipping whitespace; `fuel` bounds the
recursion depth through containers.  Restricted to the printer's grammar
(integer numbers), this is the `json.loads` counterpart used to prove the
printer lossless. -/
def parseVal : Nat → List Char → Option (JValue × List Char)
  | 0, _ => none
  | fuel + 1, input =>
    match skipWs input with
    | [] => none
    | c :: rest =>
      if c = 'n' then
        match rest with
        | 'u' :: 'l' :: 'l' :: r => some (.jnull, r)
        | _ => none
      else if c = 't' then
        match rest with
        | 'r' :: 'u' :: 'e' :: r => some (.jbool true, r)
        | _ => none
      else if c = 'f' then
        match rest with
        | 'a' :: 'l' :: 's' :: 'e' :: r => some (.jbool false, r)
        | _ => none
      else if c = '\x22' then
        (parseStrBody rest).map (fun p => (.jstr p.1, p.2))
      else if c = '[' then
        match skipWs rest with
        | ']' :: r => some (.jarr [], r)
        | _ => (parseArrItems fuel rest).map (fun p => (.jarr p.1, p.2))
      else if c = '\x7b' then
        match skipWs rest with
        | '\x7d' :: r => some (.jobj [], r)
        | _ => (parseObjItems fuel rest).map (fun p => (.jobj p.1, p.2))
      else if c = '-' then
        if (rest.takeWhile isDigitChar).isEmpty then none
        else some (.jint (-(digitsToNat (rest.takeWhile isDigitChar) : Int)),
                   rest.dropWhile isDigitChar)
      else if isDigitChar c then
        some (.jint (digitsToNat ((c :: rest).takeWhile isDigitChar)),
              (c :: rest).dropWhile isDigitChar)
      else none

/-- Decode the items of a non-empty array, from the first item to the
closing bracket. -/
def parseArrItems : Nat → List Char → Option (List JValue × List Char)
  | 0, _ => none
  | fuel + 1, input =>
    match parseVal fuel input with
    | none => none
    | some (v, r) =>
      match skipWs r with
      | ',' :: r1 => (parseArrItems fuel r1).map (fun p => (v :: p.1, p.2))
      | ']' :: r1 => some ([v], r1)
      | _ => none

/-- Decode the entries of a non-empty object, from the first key to the
closing brace. -/
def parseObjItems : Nat → List Char → Option (List (List Char × JValue) × List Char)
  | 0, _ => none
  | fuel + 1, input =>
    match skipWs input with
    | '\x22' :: r0 =>
      (match parseStrBody r0 with
      | none => none
      | some (k, r1) =>
        match skipWs r1 with
        | ':' :: r2 =>
          match parseVal fuel r2 with
          | none => none
          | some (v, r3) =>
            match skipWs r3 with
            | ',' :: r4 => (parseObjItems fuel r4).map (fun p => ((k, v) :: p.1, p.2))
            | '\x7d' :: r4 => some ([(k, v)], r4)
            | _ => none
        | _ => none)
    | _ => none

end

mutual

/-- Fuel sufficient for `parseVal` to decode a printed value: one unit per
node. -/
def sizeV : JValue → Nat
  | .jnull => 1
  | .jbool _ => 1
  | .jint _ => 1
  | .jstr _ => 1
  | .jarr vs => 1 + sizeL vs
  | .jobj es => 1 + sizeE es

/-- Fuel for the items of an array. -/
def sizeL : List JValue → Nat
  | [] => 0
  | v :: vs => 1 + sizeV v + sizeL vs

/-- Fuel for the entries of an object. -/
def sizeE : List (List Char × JValue) → Nat
  | [] => 0
  | e :: es => 1 + sizeV e.2 + sizeE es

end

end PicoMol

namespace PicoMol

/-- `Char.ofNat` on a valid scalar value keeps its code point. -/
theorem toNat_ofNat_valid {n : Nat} (h : n.isValidChar) :
    (Char.ofNat n).toNat = n := by
  rw [Char.ofNat, dif_pos h]
  rfl

/-- Every `Char` holds a Unicode scalar value: below the surrogate block
or between it and `0x110000`. -/
theorem char_toNat_valid (c : Char) :
    c.toNat < 0xd800 ∨ (0xdfff < c.toNat ∧ c.toNat < 0x110000) := by
  rcases c with ⟨v, hv⟩
  rcases hv with h | ⟨h1, h2⟩
  · left
    simpa [Char.toNat, UInt32.lt_def, BitVec.lt_def] using h
  · right
    constructor
    · simpa [Char.toNat, UInt32.lt_def, BitVec.lt_def] using h1
    · simpa [Char.toNat, UInt32.lt_def, BitVec.lt_def] using h2

/-- A non-whitespace head passes `skipWs` through. -/
theorem skipWs_cons_of_neg {c : Char} (l : List Char) (h : isWsChar c = false) :
    skipWs (c :: l) = c :: l := by
  simp [skipWs, h]

/-- `skipWs` drops a whitespace prefix. -/
theorem skipWs_append_of_ws (ws l : List Char)
    (h : ∀ c ∈ ws, isWsChar c = true) : skipWs (ws ++ l) = skipWs l := by
  induction ws with
  | nil => rfl
  | cons c ws ih =>
    rw [List.cons_append, skipWs, if_pos (h c (by simp))]
    exact ih (fun c hc => h c (List.mem_cons_of_mem _ hc))

/-- The newline-indent separator is all whitespace. -/
theorem allWs_nl (level : Nat) : ∀ c ∈ nl level, isWsChar c = true := by
  intro c hc
  rw [nl] at hc
  rcases List.mem_cons.mp hc with rfl | hc
  · decide
  · rw [List.eq_of_mem_replicate hc]
    decide

/-- Whether input cannot extend a just-parsed number token: empty, or a
non-digit first character. -/
def stopsNum : List Char → Bool
  | [] => true
  | c :: _ => !isDigitChar c

/-- Decimal digit characters are decimal digits. -/
theorem isDigitChar_digitChar {d : Nat} (h : d < 10) :
    isDigitChar (digitChar d) = true := by
  interval_cases d <;> decide

/-- The code point of a digit character. -/
theorem toNat_digitChar {d : Nat} (h : d < 10) : (digitChar d).toNat = 48 + d := by
  rw [digitChar, toNat_ofNat_valid (Or.inl (by omega))]

/-- A printed natural number is never empty. -/
theorem natToChars_ne_nil (n : Nat) : natToChars n ≠ [] := by
  rw [natToChars]
  split
  · simp
  · next h =>
    simp [Nat.digits_ne_nil_iff_ne_zero.mpr h]

/-- A printed natural number consists of digit characters. -/
theorem natToChars_digits (n : Nat) : ∀ c ∈ natToChars n, isDigitChar c = true := by
  intro c hc
  rw [natToChars] at hc
  split at hc
  · rw [List.mem_singleton.mp hc]
    decide
  · simp only [List.mem_map, List.mem_reverse] at hc
    obtain ⟨d, hd, rfl⟩ := hc
    exact isDigitChar_digitChar (Nat.digits_lt_base (by norm_num) hd)

/-- `takeWhile` passes a satisfying prefix through. -/
theorem takeWhile_append_of_all {α : Type} (p : α → Bool) (xs ys : List α)
    (h : ∀ x ∈ xs, p x = true) :
    (xs ++ ys).takeWhile p = xs ++ ys.takeWhile p := by
  induction xs with
  | nil => rfl
  | cons x xs ih =>
    rw [List.cons_append, List.takeWhile_cons, h x (by simp), List.cons_append,
      ih (fun x hx => h x (List.mem_cons_of_mem _ hx))]
    rw [if_pos rfl]

/-- `dropWhile` drops a satisfying prefix. -/
theorem dropWhile_append_of_all {α : Type} (p : α → Bool) (xs ys : List α)
    (h : ∀ x ∈ xs, p x = true) :
    (xs ++ ys).dropWhile p = ys.dropWhile p := by
  induction xs with
  | nil => rfl
  | cons x xs ih =>
    rw [List.cons_append, List.dropWhile_cons_of_pos (h x (by simp))]
    exact ih (fun x hx => h x (List.mem_cons_of_mem _ hx))

/-- Nothing of a number-stopping input is taken as digits. -/
theorem takeWhile_digits_stops (rest : List Char) (h : stopsNum rest = true) :
    rest.takeWhile isDigitChar = [] ∧ rest.dropWhile isDigitChar = rest := by
  cases rest with
  | nil => exact ⟨rfl, rfl⟩
  | cons c cs =>
    rw [stopsNum, Bool.not_eq_true'] at h
    exact ⟨by simp [List.takeWhile_cons, h], by rw [List.dropWhile_cons_of_neg (by simp [h])]⟩

/-- Big-endian digit folding recovers the value of a digit list. -/
theorem foldl_digits (ds : List Nat) (h : ∀ d ∈ ds, d < 10) :
    ∀ acc : Nat,
      List.foldl (fun acc c => 10 * acc + (c.toNat - 48)) acc (ds.reverse.map digitChar) =
        acc * 10 ^ ds.length + Nat.ofDigits 10 ds := by
  induction ds with
  | nil =>
    intro acc
    simp
  | cons d ds ih =>
    intro acc
    rw [List.reverse_cons, List.map_append, List.foldl_append,
      ih (fun x hx => h x (List.mem_cons_of_mem _ hx))]
    simp only [List.map_cons, List.map_nil, List.foldl_cons, List.foldl_nil]
    rw [toNat_digitChar (h d (by simp)), Nat.ofDigits_cons, List.length_cons]
    have : 48 + d - 48 = d := by omega
    rw [this]
    ring

/-- Decoding the printed digits of a natural number gives it back. -/
theorem digitsToNat_natToChars (n : Nat) : digitsToNat (natToChars n) = n := by
  rw [natToChars]
  split
  · next h =>
    rw [h]
    decide
  · rw [digitsToNat, foldl_digits _ (fun d hd => Nat.digits_lt_base (by norm_num) hd) 0]
    simp [Nat.ofDigits_digits]

/-- Tokenizing a printed natural number followed by a number-stopping rest
splits it back apart. -/
theorem nat_token_split (m : Nat) (rest : List Char) (hstop : stopsNum rest = true) :
    (natToChars m ++ rest).takeWhile isDigitChar = natToChars m ∧
    (natToChars m ++ rest).dropWhile isDigitChar = rest := by
  obtain ⟨ht, hd⟩ := takeWhile_digits_stops rest hstop
  constructor
  · rw [takeWhile_append_of_all _ _ _ (natToChars_digits m), ht, List.append_nil]
  · rw [dropWhile_append_of_all _ _ _ (natToChars_digits m), hd]

end PicoMol

namespace PicoMol

/-- Hex digit characters are hex digits. -/
theorem isHexChar_hexDigit {d : Nat} (h : d < 16) :
    isHexChar (hexDigit d) = true := by
  interval_cases d <;> decide

/-- The value of a hex digit character. -/
theorem hexVal_hexDigit {d : Nat} (h : d < 16) : hexVal (hexDigit d) = d := by
  interval_cases d <;> decide

/-- Decoding the four digits of `hex4 n` recovers `n`. -/
theorem hex4_decode {n : Nat} (h : n < 0x10000) :
    hexVal (hexDigit (n / 4096 % 16)) * 4096 + hexVal (hexDigit (n / 256 % 16)) * 256 +
      hexVal (hexDigit (n / 16 % 16)) * 16 + hexVal (hexDigit (n % 16)) = n := by
  rw [hexVal_hexDigit (Nat.mod_lt _ (by norm_num)),
    hexVal_hexDigit (Nat.mod_lt _ (by norm_num)),
    hexVal_hexDigit (Nat.mod_lt _ (by norm_num)),
    hexVal_hexDigit (Nat.mod_lt _ (by norm_num))]
  omega

/-- The four characters of `hex4 n` are hex digits. -/
theorem hex4_isHex (n : Nat) :
    (isHexChar (hexDigit (n / 4096 % 16)) && isHexChar (hexDigit (n / 256 % 16)) &&
      isHexChar (hexDigit (n / 16 % 16)) && isHexChar (hexDigit (n % 16))) = true := by
  rw [isHexChar_hexDigit (Nat.mod_lt _ (by norm_num)),
    isHexChar_hexDigit (Nat.mod_lt _ (by norm_num)),
    isHexChar_hexDigit (Nat.mod_lt _ (by norm_num)),
    isHexChar_hexDigit (Nat.mod_lt _ (by norm_num))]
  rfl

end PicoMol

namespace PicoMol

/-- Decoding an escaped string body up to its closing quote recovers the
string and leaves the rest untouched. -/
theorem parseStrBody_escape (s : List Char) :
    ∀ rest, parseStrBody (s.flatMap escapeChar ++ ('\x22' :: rest)) = some (s, rest) := by
  induction s with
  | nil =>
    intro rest
    rw [List.flatMap_nil, List.nil_append, parseStrBody.eq_def]
    rfl
  | cons c s ih =>
    intro rest
    rw [List.flatMap_cons, List.append_assoc, escapeChar]
    by_cases h1 : c = '\x22'
    · subst h1
      rw [if_pos rfl]
      simp only [List.cons_append, List.nil_append]
      rw [parseStrBody.eq_def]
      simp only [shortUnescape]
      rw [ih rest]
      rfl
    · rw [if_neg h1]
      by_cases h2 : c = '\\'
      · subst h2
        rw [if_pos rfl]
        simp only [List.cons_append, List.nil_append]
        rw [parseStrBody.eq_def]
        simp only [shortUnescape]
        rw [ih rest]
        rfl
      · rw [if_neg h2]
        by_cases h3 : c = '\x08'
        · subst h3
          rw [if_pos rfl]
          simp only [List.cons_append, List.nil_append]
          rw [parseStrBody.eq_def]
          simp only [shortUnescape]
          rw [ih rest]
          rfl
        · rw [if_neg h3]
          by_cases h4 : c = '\x0c'
          · subst h4
            rw [if_pos rfl]
            simp only [List.cons_append, List.nil_append]
            rw [parseStrBody.eq_def]
            simp only [shortUnescape]
            rw [ih rest]
            rfl
          · rw [if_neg h4]
            by_cases h5 : c = '\n'
            · subst h5
              rw [if_pos rfl]
              simp only [List.cons_append, List.nil_append]
              rw [parseStrBody.eq_def]
              simp only [shortUnescape]
              rw [ih rest]
              rfl
            · rw [if_neg h5]
              by_cases h6 : c = '\r'
              · subst h6
                rw [if_pos rfl]
                simp only [List.cons_append, List.nil_append]
                rw [parseStrBody.eq_def]
                simp only [shortUnescape]
                rw [ih rest]
                rfl
              · rw [if_neg h6]
                by_cases h7 : c = '\t'
                · subst h7
                  rw [if_pos rfl]
                  simp only [List.cons_append, List.nil_append]
                  rw [parseStrBody.eq_def]
                  simp only [shortUnescape]
                  rw [ih rest]
                  rfl
                · rw [if_neg h7]
                  by_cases h8 : 0x20 ≤ c.toNat ∧ c.toNat ≤ 0x7e
                  · rw [if_pos h8, List.singleton_append, parseStrBody.eq_def]
                    simp only [if_neg h1, if_neg h2]
                    rw [ih rest]
                    rfl
                  · rw [if_neg h8]
                    by_cases h9 : c.toNat < 0x10000
                    · rw [if_pos h9, hex4]
                      simp only [List.cons_append, List.nil_append]
                      rw [parseStrBody.eq_def]
                      have hns : ¬(0xd800 ≤ c.toNat ∧ c.toNat < 0xdc00) := by
                        rcases char_toNat_valid c with hv | hv <;> omega
                      simp only [if_neg (show ¬('\\' : Char) = '\x22' by decide),
                        if_pos rfl, if_pos (hex4_isHex c.toNat), hex4_decode h9,
                        if_neg hns]
                      rw [ih rest]
                      simp [Char.ofNat_toNat]
                    · rw [if_neg h9, hex4, hex4]
                      simp only [List.cons_append, List.nil_append, List.append_assoc]
                      rw [parseStrBody.eq_def]
                      have hcv : c.toNat < 0x110000 := by
                        rcases char_toNat_valid c with hv | hv <;> omega
                      simp only [if_neg (show ¬('\\' : Char) = '\x22' by decide),
                        if_pos rfl,
                        if_pos (hex4_isHex _),
                        hex4_decode (show 0xd800 + (c.toNat - 0x10000) / 0x400 < 0x10000 by omega),
                        if_pos (show 0xd800 ≤ 0xd800 + (c.toNat - 0x10000) / 0x400 ∧
                          0xd800 + (c.toNat - 0x10000) / 0x400 < 0xdc00 by omega)]
                      rw [show lowSurrogate?
                            ('\\' :: 'u' ::
                              (hexDigit ((0xdc00 + (c.toNat - 0x10000) % 0x400) / 4096 % 16) ::
                              hexDigit ((0xdc00 + (c.toNat - 0x10000) % 0x400) / 256 % 16) ::
                              hexDigit ((0xdc00 + (c.toNat - 0x10000) % 0x400) / 16 % 16) ::
                              hexDigit ((0xdc00 + (c.toNat - 0x10000) % 0x400) % 16) ::
                              (s.flatMap escapeChar ++ '\x22' :: rest))) =
                          some (0xdc00 + (c.toNat - 0x10000) % 0x400,
                            s.flatMap escapeChar ++ '\x22' :: rest)
                        from ?lowok]
                      case lowok =>
                        rw [lowSurrogate?]
                        rw [if_pos ⟨rfl, rfl, hex4_isHex _,
                          by rw [hex4_decode (by omega)]; omega,
                          by rw [hex4_decode (by omega)]; omega⟩]
                        rw [hex4_decode (by omega)]
                      simp only [ih rest, Option.map_some]
                      rw [show (65536 + (0xd800 + (c.toNat - 0x10000) / 0x400 - 55296) * 1024 +
                          (0xdc00 + (c.toNat - 0x10000) % 0x400 - 56320)) = c.toNat by omega]
                      simp [Char.ofNat_toNat]

end PicoMol

namespace PicoMol

/-- Every printed value needs at least one unit of fuel. -/
theorem sizeV_pos (v : JValue) : 1 ≤ sizeV v := by
  cases v <;> simp only [sizeV] <;> omega

/-- Characters agreeing with code-point bounds that another fails are
distinct. -/
theorem toNat_bounds_ne {c c' : Char} {lo hi : Nat}
    (hn : lo ≤ c.toNat ∧ c.toNat ≤ hi)
    (h' : ¬(lo ≤ c'.toNat ∧ c'.toNat ≤ hi)) : ¬c = c' :=
  fun h => h' (h ▸ hn)

/-- A digit character is not whitespace. -/
theorem isWsChar_false_of_digit {c : Char} (h : isDigitChar c = true) :
    isWsChar c = false := by
  have hn : 48 ≤ c.toNat ∧ c.toNat ≤ 57 := by
    simpa [isDigitChar] using h
  simp only [isWsChar, Bool.or_eq_false_iff, decide_eq_false_iff_not]
  exact ⟨⟨⟨toNat_bounds_ne hn (by decide), toNat_bounds_ne hn (by decide)⟩,
    toNat_bounds_ne hn (by decide)⟩, toNat_bounds_ne hn (by decide)⟩

/-- A digit character is none of the token-starting characters the decoder
dispatches on before numbers. -/
theorem digit_ne_starters {c : Char} (h : isDigitChar c = true) :
    ¬c = 'n' ∧ ¬c = 't' ∧ ¬c = 'f' ∧ ¬c = '\x22' ∧ ¬c = '[' ∧ ¬c = '\x7b' ∧ ¬c = '-' := by
  have hn : 48 ≤ c.toNat ∧ c.toNat ≤ 57 := by
    simpa [isDigitChar] using h
  exact ⟨toNat_bounds_ne hn (by decide), toNat_bounds_ne hn (by decide),
    toNat_bounds_ne hn (by decide), toNat_bounds_ne hn (by decide),
    toNat_bounds_ne hn (by decide), toNat_bounds_ne hn (by decide),
    toNat_bounds_ne hn (by decide)⟩

/-- A printed natural number, viewed as head and tail. -/
theorem natToChars_cons (m : Nat) :
    ∃ c cs, natToChars m = c :: cs ∧ isDigitChar c = true := by
  cases hm : natToChars m with
  | nil => exact absurd hm (natToChars_ne_nil m)
  | cons c cs =>
    exact ⟨c, cs, rfl, natToChars_digits m c (hm ▸ List.mem_cons_self c cs)⟩

/-- The first character a printed value emits: never whitespace, never a
closing bracket or brace. -/
theorem dumpsV_head (v : JValue) (lvl : Nat) :
    ∃ c cs, dumpsV v lvl = c :: cs ∧ isWsChar c = false ∧ ¬c = ']' ∧ ¬c = '\x7d' := by
  cases v with
  | jnull => exact ⟨'n', _, rfl, by decide, by decide, by decide⟩
  | jbool b =>
    cases b
    · exact ⟨'f', _, rfl, by decide, by decide, by decide⟩
    · exact ⟨'t', _, rfl, by decide, by decide, by decide⟩
  | jint n =>
    show ∃ c cs, intToChars n = c :: cs ∧ _
    rw [intToChars]
    rcases lt_or_le n 0 with hneg | hpos
    · rw [if_pos hneg]
      exact ⟨'-', _, rfl, by decide, by decide, by decide⟩
    · rw [if_neg (by omega)]
      obtain ⟨c, cs, hc, hdig⟩ := natToChars_cons n.natAbs
      have hne := digit_ne_starters hdig
      have hnum : 48 ≤ c.toNat ∧ c.toNat ≤ 57 := by
        simpa [isDigitChar] using hdig
      exact ⟨c, cs, hc, isWsChar_false_of_digit hdig,
        toNat_bounds_ne hnum (by decide), toNat_bounds_ne hnum (by decide)⟩
  | jstr s => exact ⟨'\x22', _, rfl, by decide, by decide, by decide⟩
  | jarr vs =>
    cases vs
    · exact ⟨'[', _, rfl, by decide, by decide, by decide⟩
    · exact ⟨'[', _, rfl, by decide, by decide, by decide⟩
  | jobj es =>
    cases es
    · exact ⟨'\x7b', _, rfl, by decide, by decide, by decide⟩
    · exact ⟨'\x7b', _, rfl, by decide, by decide, by decide⟩

/-- After an array item, the printed text cannot extend a number token. -/
theorem stopsNum_dumpsArr (vs : List JValue) (lvl lvl' : Nat) (X : List Char) :
    stopsNum (dumpsArr vs lvl ++ (nl lvl' ++ X)) = true := by
  cases vs with
  | nil => rfl
  | cons v vs => rfl

/-- After an object value, the printed text cannot extend a number
token. -/
theorem stopsNum_dumpsObj (es : List (List Char × JValue)) (lvl lvl' : Nat)
    (X : List Char) :
    stopsNum (dumpsObj es lvl ++ (nl lvl' ++ X)) = true := by
  cases es with
  | nil => rfl
  | cons e es => rfl

/-- Prepending a string token to any text. -/
theorem encodeString_append (k X : List Char) :
    encodeString k ++ X = '\x22' :: (k.flatMap escapeChar ++ ('\x22' :: X)) := by
  simp [encodeString]

end PicoMol

namespace PicoMol

/-- The decoder recovers what the printer wrote: with enough fuel, and
after any whitespace, a printed value parses back to itself, leaving any
number-stopping rest untouched; likewise for the item loops of non-empty
arrays and objects. -/
theorem parse_dumps : ∀ fuel : Nat,
    (∀ (v : JValue) (lvl : Nat) (ws rest : List Char),
      sizeV v ≤ fuel → (∀ c ∈ ws, isWsChar c = true) → stopsNum rest = true →
      parseVal fuel (ws ++ (dumpsV v lvl ++ rest)) = some (v, rest)) ∧
    (∀ (v : JValue) (vs : List JValue) (lvl : Nat) (ws rest : List Char),
      1 + sizeV v + sizeL vs ≤ fuel → (∀ c ∈ ws, isWsChar c = true) →
      parseArrItems fuel
        (ws ++ (dumpsV v (lvl+1) ++ (dumpsArr vs (lvl+1) ++ (nl lvl ++ (']' :: rest))))) =
        some (v :: vs, rest)) ∧
    (∀ (k : List Char) (v : JValue) (es : List (List Char × JValue))
        (lvl : Nat) (ws rest : List Char),
      1 + sizeV v + sizeE es ≤ fuel → (∀ c ∈ ws, isWsChar c = true) →
      parseObjItems fuel
        (ws ++ (encodeString k ++ (':' :: ' ' :: (dumpsV v (lvl+1) ++
          (dumpsObj es (lvl+1) ++ (nl lvl ++ ('\x7d' :: rest))))))) =
        some ((k, v) :: es, rest)) := by
  intro fuel
  induction fuel with
  | zero =>
    refine ⟨?_, ?_, ?_⟩
    · intro v _ _ _ hsz _ _
      exact absurd hsz (by have := sizeV_pos v; omega)
    · intro v _ _ _ _ hsz _
      exact absurd hsz (by omega)
    · intro _ v _ _ _ _ hsz _
      exact absurd hsz (by omega)
  | succ fuel ih =>
    obtain ⟨ihV, ihA, ihE⟩ := ih
    refine ⟨?_, ?_, ?_⟩
    · intro v lvl ws rest hsz hws hstop
      cases v with
      | jnull =>
        simp only [dumpsV, List.cons_append, List.nil_append]
        rw [parseVal, skipWs_append_of_ws ws _ hws, skipWs_cons_of_neg _ (by decide)]
        simp +decide only [List.cons_append, if_true, if_false]
      | jbool b =>
        cases b <;>
          (simp only [dumpsV, List.cons_append, List.nil_append]
           rw [parseVal, skipWs_append_of_ws ws _ hws, skipWs_cons_of_neg _ (by decide)]
           simp +decide only [List.cons_append, if_true, if_false])
      | jint n =>
        show parseVal (fuel + 1) (ws ++ (intToChars n ++ rest)) = some (.jint n, rest)
        rw [intToChars]
        rcases lt_or_le n 0 with hneg | hpos
        · rw [if_pos hneg]
          rw [List.cons_append, parseVal,
            skipWs_append_of_ws ws _ hws, skipWs_cons_of_neg _ (by decide)]
          simp only [List.cons_append]
          rw [if_neg (show ¬('-' : Char) = 'n' by decide)]
          rw [if_neg (show ¬('-' : Char) = 't' by decide)]
          rw [if_neg (show ¬('-' : Char) = 'f' by decide)]
          rw [if_neg (show ¬('-' : Char) = '\x22' by decide)]
          rw [if_neg (show ¬('-' : Char) = '[' by decide)]
          rw [if_neg (show ¬('-' : Char) = '\x7b' by decide)]
          rw [if_pos trivial]
          obtain ⟨htake, hdrop⟩ := nat_token_split n.natAbs rest hstop
          have hne : (natToChars n.natAbs).isEmpty = false := by
            obtain ⟨c, cs, hc, -⟩ := natToChars_cons n.natAbs
            rw [hc]
            rfl
          rw [htake, hdrop, hne, if_neg (show ¬(false = true) by decide),
            digitsToNat_natToChars, show -((n.natAbs : Nat) : Int) = n by omega]
        · rw [if_neg (by omega)]
          obtain ⟨c, cs, hc, hdig⟩ := natToChars_cons n.natAbs
          obtain ⟨hcn, hct, hcf, hcq, hcbr, hcbc, hcm⟩ := digit_ne_starters hdig
          rw [hc, List.cons_append, parseVal,
            skipWs_append_of_ws ws _ hws, skipWs_cons_of_neg _ (isWsChar_false_of_digit hdig)]
          simp only [List.cons_append]
          simp only [if_neg hcn, if_neg hct, if_neg hcf, if_neg hcq, if_neg hcbr,
            if_neg hcbc, if_neg hcm, if_pos hdig]
          rw [show c :: (cs ++ rest) = natToChars n.natAbs ++ rest by rw [hc]; rfl]
          obtain ⟨htake, hdrop⟩ := nat_token_split n.natAbs rest hstop
          rw [htake, hdrop, digitsToNat_natToChars,
            show ((n.natAbs : Nat) : Int) = n by omega]
      | jstr s =>
        simp only [dumpsV, encodeString, List.cons_append, List.nil_append,
          List.append_assoc]
        rw [parseVal, skipWs_append_of_ws ws _ hws, skipWs_cons_of_neg _ (by decide)]
        simp only [List.cons_append, List.singleton_append]
        rw [parseStrBody_escape s rest]
        rfl
      | jarr vs =>
        cases vs with
        | nil =>
          simp only [dumpsV, List.cons_append, List.nil_append]
          rw [parseVal, skipWs_append_of_ws ws _ hws, skipWs_cons_of_neg _ (by decide)]
          simp +decide only [List.cons_append, if_true, if_false]
          rw [skipWs_cons_of_neg _ (by decide)]
          rfl
        | cons v vs =>
          simp only [dumpsV, List.cons_append, List.nil_append, List.append_assoc,
            List.singleton_append]
          rw [parseVal, skipWs_append_of_ws ws _ hws, skipWs_cons_of_neg _ (by decide)]
          simp +decide only [List.cons_append, if_true, if_false]
          rw [ihA v vs lvl (nl (lvl+1)) rest
            (by simp only [sizeV, sizeL] at hsz; omega) (allWs_nl _)]
          obtain ⟨c0, cs0, hc0, hcws, hcne, -⟩ := dumpsV_head v (lvl+1)
          rw [skipWs_append_of_ws _ _ (allWs_nl _), hc0, List.cons_append,
            skipWs_cons_of_neg _ hcws]
          split
          · next r hr =>
            rw [List.cons.injEq] at hr
            exact absurd hr.1 hcne
          · rfl
      | jobj es =>
        cases es with
        | nil =>
          simp only [dumpsV, List.cons_append, List.nil_append]
          rw [parseVal, skipWs_append_of_ws ws _ hws, skipWs_cons_of_neg _ (by decide)]
          simp +decide only [List.cons_append, if_true, if_false]
          rw [skipWs_cons_of_neg _ (by decide)]
          rfl
        | cons e es =>
          simp only [dumpsV, List.cons_append, List.nil_append, List.append_assoc,
            List.singleton_append]
          rw [parseVal, skipWs_append_of_ws ws _ hws, skipWs_cons_of_neg _ (by decide)]
          simp +decide only [List.cons_append, if_true, if_false]
          rw [ihE e.1 e.2 es lvl (nl (lvl+1)) rest
            (by simp only [sizeV, sizeE] at hsz; omega) (allWs_nl _)]
          rw [skipWs_append_of_ws _ _ (allWs_nl _), encodeString_append,
            skipWs_cons_of_neg _ (by decide)]
          split
          · next r hr =>
            rw [List.cons.injEq] at hr
            exact absurd hr.1 (by decide)
          · rfl
    · intro v vs lvl ws rest hsz hws
      rw [parseArrItems,
        ihV v (lvl+1) ws (dumpsArr vs (lvl+1) ++ (nl lvl ++ (']' :: rest)))
          (by have := sizeV_pos v; omega) hws (stopsNum_dumpsArr vs (lvl+1) lvl _)]
      cases vs with
      | nil =>
        simp only [dumpsArr, List.nil_append]
        rw [skipWs_append_of_ws _ _ (allWs_nl _), skipWs_cons_of_neg _ (by decide)]
        rfl
      | cons v1 vs' =>
        simp only [dumpsArr, List.cons_append, List.append_assoc]
        rw [skipWs_cons_of_neg _ (by decide)]
        simp only []
        rw [ihA v1 vs' lvl (nl (lvl+1)) rest
          (by simp only [sizeL] at hsz; have := sizeV_pos v; omega) (allWs_nl _)]
        rfl
    · intro k v es lvl ws rest hsz hws
      rw [parseObjItems, skipWs_append_of_ws ws _ hws, encodeString_append,
        skipWs_cons_of_neg _ (by decide)]
      simp only []
      rw [parseStrBody_escape k]
      simp only []
      rw [skipWs_cons_of_neg _ (by decide)]
      simp only []
      have hv := ihV v (lvl+1) [' ']
        (dumpsObj es (lvl+1) ++ (nl lvl ++ ('\x7d' :: rest)))
        (by have := sizeV_pos v; omega) (by intro c hc; simp at hc; rw [hc]; rfl)
        (stopsNum_dumpsObj es (lvl+1) lvl _)
      simp only [List.singleton_append] at hv
      rw [hv]
      cases es with
      | nil =>
        simp only [dumpsObj, List.nil_append]
        rw [skipWs_append_of_ws _ _ (allWs_nl _), skipWs_cons_of_neg _ (by decide)]
        rfl
      | cons e1 es' =>
        simp only [dumpsObj, List.cons_append, List.append_assoc]
        rw [skipWs_cons_of_neg _ (by decide)]
        simp only []
        rw [ihE e1.1 e1.2 es' lvl (nl (lvl+1)) rest
          (by simp only [sizeE] at hsz; have := sizeV_pos v; omega) (allWs_nl _)]
        rfl

end PicoMol

namespace PicoMol

set_option maxRecDepth 4096 in
/-- Every character `escapeChar` emits is ASCII. -/
theorem escapeChar_ascii (c : Char) : ∀ x ∈ escapeChar c, x.toNat < 128 := by
  intro x hx
  rw [escapeChar] at hx
  split at hx
  · fin_cases hx <;> decide
  · split at hx
    · fin_cases hx <;> decide
    · split at hx
      · fin_cases hx <;> decide
      · split at hx
        · fin_cases hx <;> decide
        · split at hx
          · fin_cases hx <;> decide
          · split at hx
            · fin_cases hx <;> decide
            · split at hx
              · fin_cases hx <;> decide
              · split at hx
                · next hprint =>
                  rw [List.mem_singleton.mp hx]
                  omega
                · have hexDigit_ascii : ∀ d : Nat, d < 16 → (hexDigit d).toNat < 128 := by
                    intro d hd
                    interval_cases d <;> decide
                  split at hx
                  · simp only [hex4, List.mem_cons, List.mem_nil_iff, or_false,
                      List.not_mem_nil] at hx
                    rcases hx with h | h | h | h | h | h <;> rw [h]
                    · decide
                    · decide
                    · exact hexDigit_ascii _ (Nat.mod_lt _ (by norm_num))
                    · exact hexDigit_ascii _ (Nat.mod_lt _ (by norm_num))
                    · exact hexDigit_ascii _ (Nat.mod_lt _ (by norm_num))
                    · exact hexDigit_ascii _ (Nat.mod_lt _ (by norm_num))
                  · simp only [hex4, List.cons_append, List.nil_append, List.mem_cons,
                      List.mem_append, List.mem_nil_iff, or_false, List.not_mem_nil] at hx
                    rcases hx with h | h | h | h | h | h | h | h | h | h | h | h <;> rw [h]
                    · decide
                    · decide
                    · exact hexDigit_ascii _ (Nat.mod_lt _ (by norm_num))
                    · exact hexDigit_ascii _ (Nat.mod_lt _ (by norm_num))
                    · exact hexDigit_ascii _ (Nat.mod_lt _ (by norm_num))
                    · exact hexDigit_ascii _ (Nat.mod_lt _ (by norm_num))
                    · decide
                    · decide
                    · exact hexDigit_ascii _ (Nat.mod_lt _ (by norm_num))
                    · exact hexDigit_ascii _ (Nat.mod_lt _ (by norm_num))
                    · exact hexDigit_ascii _ (Nat.mod_lt _ (by norm_num))
                    · exact hexDigit_ascii _ (Nat.mod_lt _ (by norm_num))

/-- Every character of an encoded string token is ASCII. -/
theorem encodeString_ascii (s : List Char) : ∀ x ∈ encodeString s, x.toNat < 128 := by
  intro x hx
  rw [encodeString] at hx
  rcases List.mem_cons.mp hx with rfl | hx
  · decide
  · rcases List.mem_append.mp hx with hx | hx
    · obtain ⟨c, -, hc⟩ := List.mem_flatMap.mp hx
      exact escapeChar_ascii c x hc
    · rw [List.mem_singleton.mp hx]; decide

/-- Every character of a printed integer is ASCII. -/
theorem intToChars_ascii (n : Int) : ∀ x ∈ intToChars n, x.toNat < 128 := by
  have hnat : ∀ m : Nat, ∀ x ∈ natToChars m, x.toNat < 128 := by
    intro m x hx
    have hd := natToChars_digits m x hx
    have : 48 ≤ x.toNat ∧ x.toNat ≤ 57 := by simpa [isDigitChar] using hd
    omega
  intro x hx
  rw [intToChars] at hx
  split at hx
  · rcases List.mem_cons.mp hx with rfl | hx
    · decide
    · exact hnat _ x hx
  · exact hnat _ x hx

/-- Every character of a newline-indent separator is ASCII. -/
theorem nl_ascii (level : Nat) : ∀ x ∈ nl level, x.toNat < 128 := by
  intro x hx
  rw [nl] at hx
  rcases List.mem_cons.mp hx with rfl | hx
  · decide
  · rw [List.eq_of_mem_replicate hx]; decide

/-- Everything the printer emits is ASCII (json.dump escapes non-ASCII by
default), at every fuel bound. -/
theorem dumps_ascii_aux : ∀ n : Nat,
    (∀ (v : JValue) (lvl : Nat), sizeV v ≤ n → ∀ x ∈ dumpsV v lvl, x.toNat < 128) ∧
    (∀ (vs : List JValue) (lvl : Nat), sizeL vs ≤ n → ∀ x ∈ dumpsArr vs lvl, x.toNat < 128) ∧
    (∀ (es : List (List Char × JValue)) (lvl : Nat), sizeE es ≤ n →
      ∀ x ∈ dumpsObj es lvl, x.toNat < 128) := by
  intro n
  induction n with
  | zero =>
    refine ⟨?_, ?_, ?_⟩
    · intro v _ hsz
      exact absurd hsz (by have := sizeV_pos v; omega)
    · intro vs _ hsz x hx
      cases vs with
      | nil => exact absurd hx (by simp [dumpsArr])
      | cons v vs => exact absurd hsz (by simp only [sizeL]; omega)
    · intro es _ hsz x hx
      cases es with
      | nil => exact absurd hx (by simp [dumpsObj])
      | cons e es => exact absurd hsz (by simp only [sizeE]; omega)
  | succ n ih =>
    obtain ⟨ihV, ihA, ihE⟩ := ih
    refine ⟨?_, ?_, ?_⟩
    · intro v lvl hsz x hx
      cases v with
      | jnull =>
        simp only [dumpsV, List.mem_cons, List.mem_nil_iff, or_false] at hx
        rcases hx with rfl | rfl | rfl | rfl <;> decide
      | jbool b =>
        cases b <;>
          (simp only [dumpsV, List.mem_cons, List.mem_nil_iff, or_false] at hx) <;>
          (rcases hx with rfl | rfl | rfl | rfl | rfl <;> decide)
      | jint m => exact intToChars_ascii m x hx
      | jstr s => exact encodeString_ascii s x hx
      | jarr vs =>
        cases vs with
        | nil =>
          simp only [dumpsV, List.mem_cons, List.mem_nil_iff, or_false] at hx
          rcases hx with rfl | rfl <;> decide
        | cons v vs =>
          simp only [dumpsV, List.mem_cons, List.mem_append, List.mem_nil_iff,
            or_false] at hx
          rcases hx with rfl | hx | hx | hx | hx | rfl
          · decide
          · exact nl_ascii _ x hx
          · exact ihV v _ (by simp only [sizeV, sizeL] at hsz ⊢; omega) x hx
          · exact ihA vs _ (by simp only [sizeV, sizeL] at hsz ⊢; omega) x hx
          · exact nl_ascii _ x hx
          · decide
      | jobj es =>
        cases es with
        | nil =>
          simp only [dumpsV, List.mem_cons, List.mem_nil_iff, or_false] at hx
          rcases hx with rfl | rfl <;> decide
        | cons e es =>
          simp only [dumpsV, List.mem_cons, List.mem_append, List.mem_nil_iff,
            or_false] at hx
          rcases hx with rfl | hx | hx | rfl | rfl | hx | hx | (hx | rfl)
          · decide
          · exact nl_ascii _ x hx
          · exact encodeString_ascii _ x hx
          · decide
          · decide
          · exact ihV e.2 _ (by simp only [sizeV, sizeE] at hsz ⊢; omega) x hx
          · exact ihE es _ (by simp only [sizeV, sizeE] at hsz ⊢; omega) x hx
          · exact nl_ascii _ x hx
          · decide
    · intro vs lvl hsz x hx
      cases vs with
      | nil => exact absurd hx (by simp [dumpsArr])
      | cons v vs =>
        simp only [dumpsArr, List.mem_cons, List.mem_append] at hx
        rcases hx with rfl | hx | hx | hx
        · decide
        · exact nl_ascii _ x hx
        · exact ihV v _ (by simp only [sizeL] at hsz; omega) x hx
        · exact ihA vs _ (by simp only [sizeL] at hsz; omega) x hx
    · intro es lvl hsz x hx
      cases es with
      | nil => exact absurd hx (by simp [dumpsObj])
      | cons e es =>
        simp only [dumpsObj, List.mem_cons, List.mem_append] at hx
        rcases hx with rfl | hx | hx | rfl | rfl | hx | hx
        · decide
        · exact nl_ascii _ x hx
        · exact encodeString_ascii _ x hx
        · decide
        · decide
        · exact ihV e.2 _ (by simp only [sizeE] at hsz; omega) x hx
        · exact ihE es _ (by simp only [sizeE] at hsz; omega) x hx

/-- C7: `save_molviewspec` writes the document as JSON text with 2-space
indent whose characters are all ASCII — so the bytes on disk are the text's
UTF-8 encoding — and the written text preserves every key and value of the
document: the decoder recovers the document exactly, with nothing left
over. -/
theorem save_molviewspec_preserves_document (d : JValue) (output_path : String) :
    (∀ x ∈ save_molviewspec d output_path, x.toNat < 128) ∧
    parseVal (sizeV d) (save_molviewspec d output_path) = some (d, []) := by
  constructor
  · intro x hx
    exact (dumps_ascii_aux (sizeV d)).1 d 0 (le_refl _) x hx
  · have h := (parse_dumps (sizeV d)).1 d 0 [] [] (le_refl _) (by simp) rfl
    simpa [save_molviewspec, dumps] using h

end PicoMol
